import Mathlib

/-!
Verification of the duration-sampling profiler (`util::profiler` in
`source/util-profiler.cpp`).

The accumulator state `std::map<std::chrono::nanoseconds, size_t>` is embedded
as an association list of (duration, occurrence count) pairs kept strictly
ascending by key, exactly the iteration order of `std::map`.  Durations
(`std::chrono::nanoseconds`) are signed integer nanosecond counts modelled as
`Int`; occurrence counts as `Nat`.

The `double_t` values the percentile code computes are embedded by the type
`FP`: a finite value (held exactly as a rational), an infinity of either sign,
or NaN.  The only arithmetic the profiler performs on doubles is
integer-to-double conversion, one division, comparisons, and addition or
subtraction of a small constant; the zero-denominator behaviour of the
division (0/0 is NaN, x/0 is a signed infinity) and the NaN-rejecting
comparisons are modelled faithfully, finite arithmetic is modelled exactly.
-/

namespace Profiler

/-- A duration: the signed integer nanosecond count of `std::chrono::nanoseconds`. -/
abbrev Duration := Int

/-- The accumulator mapping `std::map<std::chrono::nanoseconds, size_t>`:
an association list of (duration, occurrence count) pairs, strictly ascending
by key in any state the map can reach. -/
abbrev Timings := List (Duration × Nat)

/-- The `std::map` key invariant: keys strictly ascending, hence pairwise distinct. -/
def Sorted (tm : Timings) : Prop := tm.Pairwise (fun a b => a.1 < b.1)

instance (tm : Timings) : Decidable (Sorted tm) :=
  inferInstanceAs (Decidable (tm.Pairwise (fun a b : Duration × Nat => a.1 < b.1)))

/-- A `double_t` as the percentile code uses it: a finite value held exactly,
an infinity, or NaN. -/
inductive FP where
| nan : FP
| inf : FP
| ninf : FP
| fin : ℚ → FP
deriving DecidableEq

/-- IEEE `==` on doubles: NaN compares unequal to everything, including itself. -/
def FP.beq : FP → FP → Bool
| .fin a, .fin b => a == b
| .inf, .inf => true
| .ninf, .ninf => true
| _, _ => false

/-- IEEE `<=` on doubles: false whenever either operand is NaN. -/
def FP.le : FP → FP → Bool
| .nan, _ => false
| _, .nan => false
| .ninf, _ => true
| _, .ninf => false
| _, .inf => true
| .inf, _ => false
| .fin a, .fin b => decide (a ≤ b)

/-- IEEE `<` on doubles: false whenever either operand is NaN. -/
def FP.lt : FP → FP → Bool
| .nan, _ => false
| _, .nan => false
| .ninf, .ninf => false
| .ninf, _ => true
| _, .ninf => false
| .inf, _ => false
| _, .inf => true
| .fin a, .fin b => decide (a < b)

/-- IEEE addition restricted to what the code needs; NaN propagates. -/
def FP.add : FP → FP → FP
| .nan, _ => .nan
| _, .nan => .nan
| .inf, .ninf => .nan
| .ninf, .inf => .nan
| .inf, _ => .inf
| _, .inf => .inf
| .ninf, _ => .ninf
| _, .ninf => .ninf
| .fin a, .fin b => .fin (a + b)

/-- IEEE subtraction restricted to what the code needs; NaN propagates. -/
def FP.sub : FP → FP → FP
| .nan, _ => .nan
| _, .nan => .nan
| .inf, .inf => .nan
| .ninf, .ninf => .nan
| .inf, _ => .inf
| _, .inf => .ninf
| .ninf, _ => .ninf
| _, .ninf => .inf
| .fin a, .fin b => .fin (a - b)

/-- Double division `a / b` of two exactly-representable operands (the source
only ever divides doubles obtained from integer counts), with the IEEE
zero-denominator behaviour: 0/0 is NaN, x/0 for x nonzero is a signed infinity. -/
def fdiv (a b : ℚ) : FP :=
  if b = 0 then
    if a = 0 then .nan else if 0 < a then .inf else .ninf
  else .fin (a / b)

/-- The helper template from the source:
`is_equal(a, b, c) = (a == b) || ((a >= (b - c)) && (a <= (b + c)))`. -/
def is_equal (a b c : FP) : Bool :=
  a.beq b || ((b.sub c).le a && a.le (b.add c))

/-- Embedding of `util::profiler::track(duration)`: look the duration up in the mapping,
insert it with count 1 when absent, otherwise increment its count.
`std::map` keeps keys ascending, so insertion of a new key is sorted insertion. -/
def track (d : Duration) : Timings → Timings
| [] => [(d, 1)]
| (k, n) :: rest =>
  if d < k then (d, 1) :: (k, n) :: rest
  else if d = k then (k, n + 1) :: rest
  else (k, n) :: track d rest

/-- A fresh profiler after a finite sequence of `track(duration)` calls,
applied in order. -/
def recordAll (l : List Duration) : Timings :=
  l.foldl (fun tm d => track d tm) []

/-- Embedding of `util::profiler::count()`: walk the snapshot summing the occurrence counts. -/
def count (tm : Timings) : Nat :=
  tm.foldl (fun c kv => c + kv.2) 0

/-- Embedding of `util::profiler::total_duration()`: walk the snapshot summing
`kv.first * kv.second`. -/
def total_duration (tm : Timings) : Duration :=
  tm.foldl (fun dur kv => dur + kv.1 * (kv.2 : Int)) 0

/-- Embedding of `util::profiler::average_duration()`: one walk accumulating the duration
sum and the call count, then `double_t(duration.count()) / double_t(count)`. -/
def average_duration (tm : Timings) : FP :=
  let s := tm.foldl (fun acc kv => (acc.1 + kv.1 * (kv.2 : Int), acc.2 + kv.2)) ((0 : Int), (0 : Nat))
  fdiv (s.1 : ℚ) (s.2 : ℚ)

/-- Value of `copy_timings.begin()->first` on a non-empty snapshot: the smallest key. -/
def smallestKey (tm : Timings) : Duration := (tm.map Prod.fst).headD 0

/-- Value of `copy_timings.rbegin()->first` on a non-empty snapshot: the largest key. -/
def largestKey (tm : Timings) : Duration := (tm.map Prod.fst).getLastD 0

/-- Value of `kv_pct` for one entry of the by-time scan:
`double_t((kv.first - smallest).count()) / double_t(variance.count())`. -/
def kvPct (smallest variance : Duration) (k : Duration) : FP :=
  fdiv ((k - smallest : Int) : ℚ) ((variance : Int) : ℚ)

/-- The acceptance test of the by-time loop body:
`is_equal(kv_pct, percentile, 0.00005) || (kv_pct > percentile)`. -/
def timeCond (smallest variance : Duration) (p : ℚ) (k : Duration) : Bool :=
  is_equal (kvPct smallest variance k) (.fin p) (.fin (1 / 20000))
    || FP.lt (.fin p) (kvPct smallest variance k)

/-- The by-time loop: scan entries in ascending key order, returning the first
key accepted by `timeCond`. -/
def percentileScanTime (smallest variance : Duration) (p : ℚ) : Timings → Option Duration
| [] => none
| kv :: rest =>
  if timeCond smallest variance p kv.1 then some kv.1
  else percentileScanTime smallest variance p rest

/-- The acceptance test of the by-call loop body:
`is_equal(percentile, percentile_now, 0.0005) ||
 ((percentile_last < percentile) && (percentile_now > percentile))`, where
`percentile_last` and `percentile_now` are the cumulative call-count fractions
before and after the current entry. -/
def callCond (calls : Nat) (p : ℚ) (accu_last accu_now : Nat) : Bool :=
  is_equal (.fin p) (fdiv (accu_now : ℚ) (calls : ℚ)) (.fin (1 / 2000))
    || (FP.lt (fdiv (accu_last : ℚ) (calls : ℚ)) (.fin p)
        && FP.lt (.fin p) (fdiv (accu_now : ℚ) (calls : ℚ)))

/-- The by-call loop: scan entries in ascending key order carrying the
cumulative call count, returning the first key accepted by `callCond`. -/
def percentileScanCalls (calls : Nat) (p : ℚ) : Nat → Timings → Option Duration
| _, [] => none
| accu_last, kv :: rest =>
  if callCond calls p accu_last (accu_last + kv.2) then some kv.1
  else percentileScanCalls calls p (accu_last + kv.2) rest

/-- Embedding of `util::profiler::percentile(percentile, by_time)`.  The by-time branch
reads the smallest and largest key, then scans for the first entry accepted by
`timeCond`; the by-call branch special-cases `percentile == 0.0` to the
smallest key and otherwise scans cumulative call-count fractions; either scan
falling through returns the sentinel `nanoseconds(-1)`.  On an empty snapshot
the source dereferences `copy_timings.begin()` (undefined behaviour); those
unreachable-under-the-claims cases are totalised to the sentinel here.  The
`threshold` value the source computes in the by-time branch is never read
(a dead store) and is omitted. -/
def percentile (tm : Timings) (p : ℚ) (by_time : Bool) : Duration :=
  let calls := count tm
  if by_time then
    if tm.isEmpty then -1
    else
      (percentileScanTime (smallestKey tm) (largestKey tm - smallestKey tm) p tm).getD (-1)
  else
    if p = 0 then
      (if tm.isEmpty then -1 else smallestKey tm)
    else
      (percentileScanCalls calls p 0 tm).getD (-1)

/-- Normalised position of a duration within the observed range, exactly as
the by-time scan computes it for the entry holding that duration. -/
def normPos (tm : Timings) (d : Duration) : FP :=
  kvPct (smallestKey tm) (largestKey tm - smallestKey tm) d

/-- Sum of the occurrence counts of an entry list. -/
def sumCounts (tm : Timings) : Nat := (tm.map Prod.snd).sum

/-- The occurrence count the mapping stores for a key, 0 when the key is absent. -/
def valueOf (d : Duration) (tm : Timings) : Nat :=
  ((tm.find? (fun kv => kv.1 == d)).map Prod.snd).getD 0

/-- Embedding of `util::profiler::instance`: a scope tracker holding `_parent`, a
shared_ptr to the owning profiler (`none` models a null pointer), and the
`_start` timestamp captured at construction. -/
structure Instance where
mkInst ::
_parent : Option Nat
_start : Int

/-- The destructor `~instance` observed at end time `e`: it computes
`dur = e - _start` and, when `_parent` is non-null, reports `track(dur)` to
that parent; the result records which accumulator (if any) receives which
duration. -/
def releaseTo (inst : Instance) (e : Int) : Option (Nat × Int) :=
  match inst._parent with
  | some acc => some (acc, e - inst._start)
  | none => none

/-- Embedding of `instance::cancel()`: `_parent.reset()`. -/
def cancel (inst : Instance) : Instance := { inst with _parent := none }

/-- Embedding of `instance::reparent(parent)`: the whole body of the source is the
self-assignment `parent = parent;`, which assigns the by-value parameter to
itself and never touches `_parent`, so the tracker state is returned
unchanged. -/
def reparent (inst : Instance) (parent : Option Nat) : Instance :=
  let parent := parent
  inst

theorem count_foldl (tm : Timings) : ∀ a : Nat,
    tm.foldl (fun c kv => c + kv.2) a = a + tm.foldl (fun c kv => c + kv.2) 0 := by
  induction tm with
  | nil => intro a; simp
  | cons kv rest ih =>
    intro a
    simp only [List.foldl_cons]
    rw [ih (a + kv.2), ih (0 + kv.2)]
    omega

theorem count_cons (kv : Duration × Nat) (tm : Timings) :
    count (kv :: tm) = kv.2 + count tm := by
  show (kv :: tm).foldl (fun c kv => c + kv.2) 0 = kv.2 + count tm
  simp only [List.foldl_cons]
  rw [count_foldl]
  simp [count]

theorem total_foldl (tm : Timings) : ∀ a : Int,
    tm.foldl (fun dur kv => dur + kv.1 * (kv.2 : Int)) a
      = a + tm.foldl (fun dur kv => dur + kv.1 * (kv.2 : Int)) 0 := by
  induction tm with
  | nil => intro a; simp
  | cons kv rest ih =>
    intro a
    simp only [List.foldl_cons]
    rw [ih (a + kv.1 * (kv.2 : Int)), ih (0 + kv.1 * (kv.2 : Int))]
    ring

theorem total_cons (kv : Duration × Nat) (tm : Timings) :
    total_duration (kv :: tm) = kv.1 * (kv.2 : Int) + total_duration tm := by
  show (kv :: tm).foldl (fun dur kv => dur + kv.1 * (kv.2 : Int)) 0
      = kv.1 * (kv.2 : Int) + total_duration tm
  simp only [List.foldl_cons]
  rw [total_foldl]
  simp [total_duration]

theorem average_pair_foldl (tm : Timings) : ∀ (a : Int) (b : Nat),
    tm.foldl (fun acc kv => (acc.1 + kv.1 * (kv.2 : Int), acc.2 + kv.2)) (a, b)
      = (a + total_duration tm, b + count tm) := by
  induction tm with
  | nil => intro a b; simp [total_duration, count]
  | cons kv rest ih =>
    intro a b
    simp only [List.foldl_cons]
    rw [ih, total_cons, count_cons]
    rw [Prod.mk.injEq]
    exact ⟨by ring, by omega⟩

theorem average_eq_fdiv (tm : Timings) :
    average_duration tm = fdiv ((total_duration tm : ℚ)) ((count tm : ℚ)) := by
  show fdiv _ _ = _
  rw [show tm.foldl (fun acc kv => (acc.1 + kv.1 * (kv.2 : Int), acc.2 + kv.2)) ((0 : Int), (0 : Nat))
        = (0 + total_duration tm, 0 + count tm) from average_pair_foldl tm 0 0]
  simp

theorem fdiv_of_ne_zero (a b : ℚ) (hb : b ≠ 0) : fdiv a b = .fin (a / b) := by
  simp [fdiv, hb]

theorem count_track (d : Duration) (tm : Timings) : count (track d tm) = count tm + 1 := by
  induction tm with
  | nil =>
    rw [track, count_cons]
    rfl
  | cons kv rest ih =>
    obtain ⟨k, n⟩ := kv
    rw [track]
    by_cases h1 : d < k
    · simp only [if_pos h1]
      simp [count_cons]
      omega
    · by_cases h2 : d = k
      · simp only [if_neg h1, if_pos h2]
        simp [count_cons]
        omega
      · simp only [if_neg h1, if_neg h2]
        simp [count_cons, ih]
        omega

theorem count_recordAll_aux (l : List Duration) : ∀ tm : Timings,
    count (l.foldl (fun tm d => track d tm) tm) = count tm + l.length := by
  induction l with
  | nil => intro tm; simp
  | cons d l ih =>
    intro tm
    simp only [List.foldl_cons, List.length_cons]
    rw [ih (track d tm), count_track]
    omega

/-- C4: for every finite sequence of record(duration) calls applied to a fresh
accumulator, count() afterwards equals the length of that sequence, duplicate
duration values each counted. -/
theorem count_eq_number_of_records (l : List Duration) :
    count (recordAll l) = l.length := by
  show count (l.foldl (fun tm d => track d tm) []) = l.length
  rw [count_recordAll_aux]
  simp [count]

/-- C5: whenever count() > 0, average_duration() equals total_duration()
divided by count() as a floating-point value; on a fresh accumulator with no
samples it produces NaN (0.0/0.0) rather than a valid average. -/
theorem average_is_total_div_count (tm : Timings) :
    (0 < count tm →
      average_duration tm = .fin ((total_duration tm : ℚ) / (count tm : ℚ))) ∧
    average_duration (recordAll []) = .nan := by
  constructor
  · intro h
    rw [average_eq_fdiv, fdiv_of_ne_zero]
    exact Nat.cast_ne_zero.2 h.ne'
  · with_unfolding_all decide

theorem average_is_total_div_count_witness :
    0 < count (recordAll [10, 30]) ∧
    average_duration (recordAll [10, 30]) = .fin 20 := by
  refine ⟨by with_unfolding_all decide, ?_⟩
  rw [(average_is_total_div_count (recordAll [10, 30])).1 (by with_unfolding_all decide)]
  with_unfolding_all decide

/-- C9: reparent(new_accumulator) is a no-op: the tracker state is unchanged,
a later release still reports to the original accumulator, and a cancelled
tracker still reports to none after reparent. -/
theorem reparent_is_no_op (inst : Instance) (par : Option Nat) (e : Int) :
    reparent inst par = inst ∧
    releaseTo (reparent inst par) e = releaseTo inst e ∧
    releaseTo (reparent (cancel inst) par) e = none :=
  ⟨rfl, rfl, rfl⟩

theorem isEmpty_false_of_ne_nil (tm : Timings) (hne : tm ≠ []) : tm.isEmpty = false := by
  cases tm with
  | nil => exact absurd rfl hne
  | cons kv rest => rfl

theorem smallestKey_cons (kv : Duration × Nat) (rest : Timings) :
    smallestKey (kv :: rest) = kv.1 := rfl

theorem largestKey_cons_cons (kv kv2 : Duration × Nat) (rest2 : Timings) :
    largestKey (kv :: kv2 :: rest2) = largestKey (kv2 :: rest2) := by
  simp [largestKey, List.getLastD_cons]

theorem sorted_head_min (tm : Timings) (hs : Sorted tm) :
    ∀ e ∈ tm.map Prod.fst, smallestKey tm ≤ e := by
  cases tm with
  | nil => intro e he; simp at he
  | cons kv rest =>
    intro e he
    rw [List.map_cons, List.mem_cons] at he
    rcases he with rfl | he
    · exact le_of_eq (smallestKey_cons kv rest)
    · rcases List.mem_map.1 he with ⟨kv2, hkv2, rfl⟩
      rw [smallestKey_cons]
      exact le_of_lt ((List.pairwise_cons.1 hs).1 kv2 hkv2)

theorem sorted_getLast_max (tm : Timings) (hs : Sorted tm) :
    ∀ e ∈ tm.map Prod.fst, e ≤ largestKey tm := by
  induction tm with
  | nil => intro e he; simp at he
  | cons kv rest ih =>
    intro e he
    cases rest with
    | nil =>
      simp at he
      simp [largestKey, he]
    | cons kv2 rest2 =>
      have htail : Sorted (kv2 :: rest2) := (List.pairwise_cons.1 hs).2
      rw [largestKey_cons_cons]
      rw [List.map_cons, List.mem_cons] at he
      rcases he with rfl | he
      · have h12 : kv.1 < kv2.1 := (List.pairwise_cons.1 hs).1 kv2 (by simp)
        exact le_trans (le_of_lt h12) (ih htail kv2.1 (by simp))
      · exact ih htail e he

theorem smallestKey_mem (tm : Timings) (hne : tm ≠ []) :
    smallestKey tm ∈ tm.map Prod.fst := by
  cases tm with
  | nil => exact absurd rfl hne
  | cons kv rest => simp [smallestKey_cons]

theorem largestKey_mem (tm : Timings) (hne : tm ≠ []) :
    largestKey tm ∈ tm.map Prod.fst := by
  induction tm with
  | nil => exact absurd rfl hne
  | cons kv rest ih =>
    cases rest with
    | nil => simp [largestKey]
    | cons kv2 rest2 =>
      rw [largestKey_cons_cons, List.map_cons]
      exact List.mem_cons_of_mem _ (ih (by simp))

/-- C2: for every non-empty accumulator, percentile(0.0, by_time=false)
returns the minimum recorded duration. -/
theorem by_call_percentile_zero_is_min (tm : Timings) (hs : Sorted tm) (hne : tm ≠ []) :
    percentile tm 0 false ∈ tm.map Prod.fst ∧
    ∀ e ∈ tm.map Prod.fst, percentile tm 0 false ≤ e := by
  have hp : percentile tm 0 false = smallestKey tm := by
    unfold percentile
    simp [isEmpty_false_of_ne_nil tm hne]
  rw [hp]
  exact ⟨smallestKey_mem tm hne, sorted_head_min tm hs⟩

theorem by_call_percentile_zero_is_min_witness :
    percentile [((10 : Int), (1 : Nat)), (25, 2)] 0 false ∈
      ([((10 : Int), (1 : Nat)), (25, 2)] : Timings).map Prod.fst ∧
    ∀ e ∈ ([((10 : Int), (1 : Nat)), (25, 2)] : Timings).map Prod.fst,
      percentile [((10 : Int), (1 : Nat)), (25, 2)] 0 false ≤ e :=
  by_call_percentile_zero_is_min _ (by with_unfolding_all decide) (by with_unfolding_all decide)

theorem percentile_true_eq (tm : Timings) (p : ℚ) (hne : tm ≠ []) :
    percentile tm p true
      = (percentileScanTime (smallestKey tm) (largestKey tm - smallestKey tm) p tm).getD (-1) := by
  unfold percentile
  rw [isEmpty_false_of_ne_nil tm hne]
  rfl

theorem percentile_false_eq (tm : Timings) (p : ℚ) (hp : p ≠ 0) :
    percentile tm p false = (percentileScanCalls (count tm) p 0 tm).getD (-1) := by
  unfold percentile
  simp [hp]

theorem timeCond_eq_le (s v : Duration) (p : ℚ) (k : Duration) :
    timeCond s v p k = FP.le (.fin (p - 1 / 20000)) (kvPct s v k) := by
  unfold timeCond is_equal
  cases hk : kvPct s v k with
  | nan => rfl
  | inf => rfl
  | ninf => rfl
  | fin q =>
    simp only [FP.beq, FP.le, FP.lt, FP.sub, FP.add]
    rw [Bool.eq_iff_iff]
    simp only [Bool.or_eq_true, Bool.and_eq_true, decide_eq_true_eq, beq_iff_eq]
    constructor
    · rintro ((rfl | ⟨h1, h2⟩) | h3)
      · linarith
      · exact h1
      · linarith
    · intro h
      by_cases h2 : q ≤ p + 1 / 20000
      · exact Or.inl (Or.inr ⟨h, h2⟩)
      · push_neg at h2
        exact Or.inr (by linarith)

theorem scanTime_eq_some (s v : Duration) (p : ℚ) (l : Timings) (hs : Sorted l)
    (d : Duration) (hmem : d ∈ l.map Prod.fst) (hd : timeCond s v p d = true)
    (hmin : ∀ e ∈ l.map Prod.fst, e < d → timeCond s v p e = false) :
    percentileScanTime s v p l = some d := by
  induction l with
  | nil => simp at hmem
  | cons kv rest ih =>
    rw [percentileScanTime]
    by_cases h : timeCond s v p kv.1 = true
    · have hkd : kv.1 = d := by
        rw [List.map_cons, List.mem_cons] at hmem
        rcases hmem with rfl | h2
        · rfl
        · rcases List.mem_map.1 h2 with ⟨kv2, hkv2, rfl⟩
          have hlt : kv.1 < kv2.1 := (List.pairwise_cons.1 hs).1 kv2 hkv2
          have := hmin kv.1 (by simp) hlt
          rw [h] at this
          exact absurd this (by simp)
      rw [if_pos h, hkd]
    · have hne : kv.1 ≠ d := fun he => h (he ▸ hd)
      have hmem2 : d ∈ rest.map Prod.fst := by
        rw [List.map_cons, List.mem_cons] at hmem
        rcases hmem with rfl | h2
        · exact absurd rfl hne
        · exact h2
      rw [if_neg h]
      exact ih ((List.pairwise_cons.1 hs).2) hmem2
        (fun e he hlt => hmin e (by rw [List.map_cons]; exact List.mem_cons_of_mem _ he) hlt)

theorem scanTime_eq_none (s v : Duration) (p : ℚ) (l : Timings)
    (h : ∀ e ∈ l.map Prod.fst, timeCond s v p e = false) :
    percentileScanTime s v p l = none := by
  induction l with
  | nil => rfl
  | cons kv rest ih =>
    rw [percentileScanTime, h kv.1 (by simp), if_neg (by simp)]
    exact ih (fun e he => h e (by rw [List.map_cons]; exact List.mem_cons_of_mem _ he))

theorem sumCounts_nil : sumCounts ([] : Timings) = 0 := rfl

theorem sumCounts_cons (kv : Duration × Nat) (l : Timings) :
    sumCounts (kv :: l) = kv.2 + sumCounts l := by
  simp [sumCounts]

theorem scanCalls_eq_none (calls : Nat) (p : ℚ) (l : Timings) : ∀ a : Nat,
    (∀ j, j < l.length →
      callCond calls p (a + sumCounts (l.take j)) (a + sumCounts (l.take (j + 1))) = false) →
    percentileScanCalls calls p a l = none := by
  induction l with
  | nil => intro a _; rfl
  | cons kv rest ih =>
    intro a h
    rw [percentileScanCalls]
    have h0 := h 0 (by simp)
    rw [List.take_zero, List.take_succ_cons, List.take_zero, sumCounts_nil, sumCounts_cons,
      sumCounts_nil, Nat.add_zero, Nat.add_zero] at h0
    rw [h0, if_neg (by simp)]
    exact ih (a + kv.2) (fun j hj => by
      have hh := h (j + 1) (by simpa using hj)
      rw [List.take_succ_cons, sumCounts_cons, List.take_succ_cons, sumCounts_cons,
        ← Nat.add_assoc, ← Nat.add_assoc] at hh
      exact hh)

/-- C1: for every non-empty accumulator and every percentile fraction p in
[0, 1], percentile(p, by_time=true) returns the smallest recorded distinct
duration whose normalised position (d - smallest) / (largest - smallest) is
at least p, equality being accepted within the ±0.00005 tolerance (together:
position ≥ p - 0.00005 under the double semantics, NaN rejecting), with
distinct durations scanned in ascending order. -/
theorem by_time_percentile_least (tm : Timings) (hs : Sorted tm) (hne : tm ≠ [])
    (p : ℚ) (hp0 : 0 ≤ p) (hp1 : p ≤ 1) (d : Duration)
    (hmem : d ∈ tm.map Prod.fst)
    (hcond : FP.le (.fin (p - 1 / 20000)) (normPos tm d) = true)
    (hleast : ∀ e ∈ tm.map Prod.fst, e < d →
      FP.le (.fin (p - 1 / 20000)) (normPos tm e) = false) :
    percentile tm p true = d := by
  rw [percentile_true_eq tm p hne]
  rw [scanTime_eq_some (smallestKey tm) (largestKey tm - smallestKey tm) p tm hs d hmem
    (by rw [timeCond_eq_le]; exact hcond)
    (fun e he hlt => by rw [timeCond_eq_le]; exact hleast e he hlt)]
  rfl

theorem by_time_percentile_least_witness :
    percentile [((10 : Int), (1 : Nat)), (20, 2), (30, 1)] (1 / 2) true = 20 :=
  by_time_percentile_least [((10 : Int), (1 : Nat)), (20, 2), (30, 1)]
    (by with_unfolding_all decide) (by with_unfolding_all decide) (1 / 2)
    (by with_unfolding_all decide) (by with_unfolding_all decide) 20
    (by with_unfolding_all decide) (by with_unfolding_all decide)
    (by with_unfolding_all decide)

/-- C10: for every accumulator holding exactly one distinct duration (any
occurrence count at least 1) and every percentile fraction p in [0, 1],
percentile(p, by_time=true) returns the -1 ns sentinel rather than that
duration: largest - smallest is 0, the normalised position is the NaN 0.0/0.0,
and both acceptance comparisons are false for every entry. -/
theorem single_distinct_by_time_sentinel (d : Duration) (n : Nat) (hn : 1 ≤ n)
    (p : ℚ) (hp0 : 0 ≤ p) (hp1 : p ≤ 1) :
    percentile [(d, n)] p true = -1 := by
  rw [percentile_true_eq [(d, n)] p (by simp)]
  have hvar : largestKey [(d, n)] - smallestKey [(d, n)] = 0 := by
    simp [largestKey, smallestKey]
  have hc : timeCond (smallestKey [(d, n)]) (largestKey [(d, n)] - smallestKey [(d, n)])
      p (d, n).1 = false := by
    rw [timeCond_eq_le]
    have hnan : kvPct (smallestKey [(d, n)]) (largestKey [(d, n)] - smallestKey [(d, n)])
        (d, n).1 = FP.nan := by
      unfold kvPct
      rw [hvar]
      have h1 : ((d, n).1 - smallestKey [(d, n)] : Int) = 0 := by
        simp [smallestKey]
      rw [h1]
      simp [fdiv]
    rw [hnan]
    rfl
  rw [percentileScanTime, hc, if_neg (by simp)]
  rfl

theorem single_distinct_by_time_sentinel_witness :
    percentile [((7 : Int), (2 : Nat))] (1 / 3) true = -1 :=
  single_distinct_by_time_sentinel 7 2 (by decide) (1 / 3)
    (by with_unfolding_all decide) (by with_unfolding_all decide)

/-- C8: for every non-empty accumulator and percentile fraction p, if the
percentile scan reaches the end of the ascending distinct-duration sequence
with no entry satisfying its acceptance condition (and, for the by-call
variant, p is not the special-cased 0), percentile returns the sentinel
duration of -1 ns rather than failing the call. -/
theorem percentile_scan_exhausted_sentinel (tm : Timings) (p : ℚ) (bt : Bool)
    (hne : tm ≠ [])
    (ht : bt = true → ∀ e ∈ tm.map Prod.fst,
      timeCond (smallestKey tm) (largestKey tm - smallestKey tm) p e = false)
    (hc : bt = false → p ≠ 0 ∧ ∀ j, j < tm.length →
      callCond (count tm) p (sumCounts (tm.take j)) (sumCounts (tm.take (j + 1))) = false) :
    percentile tm p bt = -1 := by
  cases bt with
  | true =>
    rw [percentile_true_eq tm p hne]
    rw [scanTime_eq_none _ _ _ _ (ht rfl)]
    rfl
  | false =>
    obtain ⟨hp, hall⟩ := hc rfl
    rw [percentile_false_eq tm p hp]
    rw [scanCalls_eq_none (count tm) p tm 0 (fun j hj => by
      have := hall j hj
      simpa using this)]
    rfl

theorem percentile_scan_exhausted_sentinel_witness :
    percentile [((5 : Int), (3 : Nat))] (1 / 2) true = -1 :=
  percentile_scan_exhausted_sentinel [((5 : Int), (3 : Nat))] (1 / 2) true
    (by with_unfolding_all decide)
    (fun _ => by with_unfolding_all decide)
    (fun hbt => absurd hbt (by decide))

theorem count_eq_sumCounts (tm : Timings) : count tm = sumCounts tm := by
  induction tm with
  | nil => rfl
  | cons kv rest ih => rw [count_cons, sumCounts_cons, ih]

theorem callCond_one_of_lt (calls accu_last accu_now : Nat) (hcalls : 0 < calls)
    (hlt : ((accu_now : Nat) : ℚ) < (1 - 1 / 2000) * ((calls : Nat) : ℚ)) :
    callCond calls 1 accu_last accu_now = false := by
  have hc0 : ((calls : Nat) : ℚ) ≠ 0 := by
    exact_mod_cast hcalls.ne'
  have hq : ((accu_now : Nat) : ℚ) / ((calls : Nat) : ℚ) < 1 - 1 / 2000 := by
    rw [div_lt_iff₀ (by exact_mod_cast hcalls)]
    exact hlt
  unfold callCond
  rw [fdiv_of_ne_zero ((accu_now : Nat) : ℚ) _ hc0, fdiv_of_ne_zero ((accu_last : Nat) : ℚ) _ hc0]
  unfold is_equal
  simp only [FP.beq, FP.le, FP.lt, FP.sub, FP.add]
  have h1 : ((1 : ℚ) == ((accu_now : Nat) : ℚ) / ((calls : Nat) : ℚ)) = false := by
    rw [beq_eq_false_iff_ne]
    intro heq
    rw [← heq] at hq
    linarith
  have h2 : (decide ((1 : ℚ) ≤ ((accu_now : Nat) : ℚ) / ((calls : Nat) : ℚ) + 1 / 2000)) = false := by
    rw [decide_eq_false_iff_not, not_le]
    linarith
  have h3 : (decide ((1 : ℚ) < ((accu_now : Nat) : ℚ) / ((calls : Nat) : ℚ))) = false := by
    rw [decide_eq_false_iff_not, not_lt]
    linarith
  rw [h1, h2, h3]
  simp

theorem callCond_one_full (calls accu_last : Nat) (hcalls : 0 < calls) :
    callCond calls 1 accu_last calls = true := by
  have hc0 : ((calls : Nat) : ℚ) ≠ 0 := by
    exact_mod_cast hcalls.ne'
  unfold callCond
  rw [fdiv_of_ne_zero ((calls : Nat) : ℚ) _ hc0, div_self hc0]
  unfold is_equal
  simp [FP.beq]

theorem getLastD_congr (l : List Duration) (hne : l ≠ []) (x y : Duration) :
    l.getLastD x = l.getLastD y := by
  cases l with
  | nil => exact absurd rfl hne
  | cons a rest =>
    cases rest with
    | nil => rfl
    | cons b r => rw [List.getLastD_cons x a (b :: r), List.getLastD_cons y a (b :: r)]

theorem scanCalls_one_eq_last (calls : Nat) (l : Timings) : ∀ a : Nat, l ≠ [] →
    a + sumCounts l = calls → 0 < calls →
    (∀ j, j + 1 < l.length →
      (((a + sumCounts (l.take (j + 1))) : Nat) : ℚ) < (1 - 1 / 2000) * ((calls : Nat) : ℚ)) →
    percentileScanCalls calls 1 a l = some (largestKey l) := by
  induction l with
  | nil => intro a hne; exact absurd rfl hne
  | cons kv rest ih =>
    intro a _ hsum hcalls hpre
    cases rest with
    | nil =>
      have hnow : a + kv.2 = calls := by
        rw [← hsum, sumCounts_cons, sumCounts_nil]
        omega
      rw [percentileScanCalls, hnow, callCond_one_full calls a hcalls, if_pos rfl]
      rfl
    | cons kv2 rest2 =>
      have hfrac := hpre 0 (by simp)
      rw [List.take_succ_cons, List.take_zero, sumCounts_cons, sumCounts_nil, Nat.add_zero] at hfrac
      rw [percentileScanCalls, callCond_one_of_lt calls a (a + kv.2) hcalls hfrac,
        if_neg (by simp)]
      have hlast : largestKey (kv :: kv2 :: rest2) = largestKey (kv2 :: rest2) :=
        largestKey_cons_cons kv kv2 rest2
      rw [hlast]
      exact ih (a + kv.2) (by simp)
        (by rw [sumCounts_cons, ← Nat.add_assoc] at hsum; exact hsum)
        hcalls
        (fun j hj => by
          have hh := hpre (j + 1) (by simpa using hj)
          rw [List.take_succ_cons, sumCounts_cons, ← Nat.add_assoc] at hh
          exact hh)

/-- C3 counterexample: in the accumulator reached by recording 1999 samples of
10ns and one of 20ns, the by-call percentile(1.0) returns 10ns, not the
maximum 20ns: after the 10ns bucket the cumulative fraction is 1999/2000 =
0.9995, which the ±0.0005 tolerance of is_equal already accepts against 1.0. -/
theorem foldl_track_replicate (n : Nat) (d : Duration) (k : Nat) :
    (List.replicate n d).foldl (fun tm e => track e tm) [(d, k)] = [(d, k + n)] := by
  induction n generalizing k with
  | zero => simp
  | succ m ih =>
    rw [List.replicate_succ, List.foldl_cons]
    rw [show track d [(d, k)] = [(d, k + 1)] from by simp [track]]
    rw [ih (k + 1)]
    rw [show k + 1 + m = k + (m + 1) from by omega]

theorem by_call_percentile_one_not_max :
    recordAll (List.replicate 1999 10 ++ [20]) = [((10 : Int), 1999), (20, 1)] ∧
    Sorted [((10 : Int), (1999 : Nat)), (20, 1)] ∧
    (∀ kv ∈ ([((10 : Int), (1999 : Nat)), (20, 1)] : Timings), 0 < kv.2) ∧
    percentile [((10 : Int), (1999 : Nat)), (20, 1)] 1 false = 10 ∧
    largestKey [((10 : Int), (1999 : Nat)), (20, 1)] = 20 := by
  refine ⟨?_, ?_, ?_, ?_, ?_⟩
  · have hinner : (List.replicate 1999 (10 : Int)).foldl (fun tm e => track e tm) [] = [((10 : Int), 1999)] := by
      rw [show (1999 : Nat) = 1998 + 1 from by norm_num]
      rw [List.replicate_succ, List.foldl_cons]
      rw [show track (10 : Int) [] = [((10 : Int), 1)] from rfl]
      rw [foldl_track_replicate 1998 10 1]
    show ((List.replicate 1999 (10 : Int)) ++ [20]).foldl (fun tm d => track d tm) [] = _
    rw [List.foldl_append, hinner]
    with_unfolding_all decide
  · with_unfolding_all decide
  · with_unfolding_all decide
  · with_unfolding_all decide
  · with_unfolding_all decide

/-- C3 (amended): for every non-empty accumulator in which every proper prefix
of the ascending distinct durations accounts for a cumulative call fraction
strictly below 1 - 0.0005 = 0.9995, percentile(1.0, by_time=false) returns the
maximum recorded duration.  (Without the prefix bound the claim fails: a
prefix whose fraction is within the 0.0005 tolerance of 1.0 is returned
instead — see the counterexample.) -/
theorem by_call_percentile_one_is_max (tm : Timings) (hs : Sorted tm) (hne : tm ≠ [])
    (hpos : ∀ kv ∈ tm, 0 < kv.2)
    (hpre : ∀ j, j + 1 < tm.length →
      ((sumCounts (tm.take (j + 1)) : Nat) : ℚ) < (1 - 1 / 2000) * ((count tm : Nat) : ℚ)) :
    percentile tm 1 false ∈ tm.map Prod.fst ∧
    ∀ e ∈ tm.map Prod.fst, e ≤ percentile tm 1 false := by
  have hcalls : 0 < count tm := by
    cases tm with
    | nil => exact absurd rfl hne
    | cons kv rest =>
      rw [count_cons]
      have := hpos kv (by simp)
      omega
  have h1 : percentile tm 1 false = largestKey tm := by
    rw [percentile_false_eq tm 1 (by norm_num)]
    rw [scanCalls_one_eq_last (count tm) tm 0 hne
      (by rw [Nat.zero_add, count_eq_sumCounts]) hcalls
      (fun j hj => by rw [Nat.zero_add]; exact hpre j hj)]
    rfl
  rw [h1]
  exact ⟨largestKey_mem tm hne, sorted_getLast_max tm hs⟩

theorem by_call_percentile_one_is_max_witness :
    percentile [((10 : Int), (1 : Nat)), (20, 1), (30, 2)] 1 false ∈
      ([((10 : Int), (1 : Nat)), (20, 1), (30, 2)] : Timings).map Prod.fst ∧
    ∀ e ∈ ([((10 : Int), (1 : Nat)), (20, 1), (30, 2)] : Timings).map Prod.fst,
      e ≤ percentile [((10 : Int), (1 : Nat)), (20, 1), (30, 2)] 1 false :=
  by_call_percentile_one_is_max [((10 : Int), (1 : Nat)), (20, 1), (30, 2)]
    (by with_unfolding_all decide) (by with_unfolding_all decide)
    (by with_unfolding_all decide)
    (by
      intro j hj
      simp only [List.length_cons, List.length_nil] at hj
      have hj2 : j < 2 := by omega
      interval_cases j <;> with_unfolding_all decide)

theorem mem_keys_track (d e : Duration) (tm : Timings) :
    d ∈ (track e tm).map Prod.fst ↔ d = e ∨ d ∈ tm.map Prod.fst := by
  induction tm with
  | nil => simp [track]
  | cons kv rest ih =>
    obtain ⟨k, n⟩ := kv
    rw [track]
    by_cases h1 : e < k
    · rw [if_pos h1]
      simp only [List.map_cons, List.mem_cons]
    · by_cases h2 : e = k
      · subst h2
        rw [if_neg h1, if_pos rfl]
        simp only [List.map_cons, List.mem_cons]
        tauto
      · rw [if_neg h1, if_neg h2]
        simp only [List.map_cons, List.mem_cons, ih]
        tauto

theorem track_sorted (e : Duration) (tm : Timings) (hs : Sorted tm) :
    Sorted (track e tm) := by
  induction tm with
  | nil => simp [track, Sorted]
  | cons kv rest ih =>
    obtain ⟨k, n⟩ := kv
    have hhead := (List.pairwise_cons.1 hs).1
    have htail := (List.pairwise_cons.1 hs).2
    rw [track]
    by_cases h1 : e < k
    · rw [if_pos h1]
      unfold Sorted
      rw [List.pairwise_cons]
      refine ⟨?_, hs⟩
      intro b hb
      rcases List.mem_cons.1 hb with rfl | hb2
      · exact h1
      · exact lt_trans h1 (hhead b hb2)
    · by_cases h2 : e = k
      · rw [if_neg h1, if_pos h2]
        unfold Sorted
        rw [List.pairwise_cons]
        exact ⟨fun b hb => hhead b hb, htail⟩
      · rw [if_neg h1, if_neg h2]
        unfold Sorted
        rw [List.pairwise_cons]
        constructor
        · intro b hb
          have hb1 : b.1 ∈ (track e rest).map Prod.fst := List.mem_map_of_mem _ hb
          rcases (mem_keys_track b.1 e rest).1 hb1 with heq | hmem
          · rw [heq]
            show k < e
            exact lt_of_le_of_ne (le_of_not_lt h1) (fun hh => h2 hh.symm)
          · rcases List.mem_map.1 hmem with ⟨kv2, hkv2, hfst⟩
            rw [← hfst]
            exact hhead kv2 hkv2
        · exact ih htail

theorem valueOf_nil (d : Duration) : valueOf d [] = 0 := rfl

theorem valueOf_cons (d : Duration) (kv : Duration × Nat) (rest : Timings) :
    valueOf d (kv :: rest) = if kv.1 = d then kv.2 else valueOf d rest := by
  by_cases h : kv.1 = d
  · rw [if_pos h]
    unfold valueOf
    rw [List.find?_cons_of_pos _ (by simp [h])]
    rfl
  · rw [if_neg h]
    unfold valueOf
    rw [List.find?_cons_of_neg _ (by simp [h])]

theorem valueOf_not_mem (d : Duration) (tm : Timings) (h : d ∉ tm.map Prod.fst) :
    valueOf d tm = 0 := by
  induction tm with
  | nil => rfl
  | cons kv rest ih =>
    rw [List.map_cons, List.mem_cons] at h
    push_neg at h
    rw [valueOf_cons, if_neg (fun he => h.1 he.symm)]
    exact ih h.2

theorem valueOf_track (d e : Duration) (tm : Timings) (hs : Sorted tm) :
    valueOf d (track e tm) = valueOf d tm + (if d = e then 1 else 0) := by
  induction tm with
  | nil =>
    rw [track, valueOf_cons, valueOf_nil]
    by_cases h : d = e
    · subst h
      simp
    · simp [h, Ne.symm h]
  | cons kv rest ih =>
    obtain ⟨k, n⟩ := kv
    have hhead := (List.pairwise_cons.1 hs).1
    have htail := (List.pairwise_cons.1 hs).2
    rw [track]
    by_cases h1 : e < k
    · rw [if_pos h1, valueOf_cons]
      by_cases hd : d = e
      · rw [if_pos (show (e, (1 : Nat)).1 = d from hd.symm)]
        have hnot : d ∉ ((k, n) :: rest).map Prod.fst := by
          rw [List.map_cons, List.mem_cons]
          push_neg
          refine ⟨?_, ?_⟩
          · show d ≠ k
            rw [hd]
            exact ne_of_lt h1
          · intro hmem
            rcases List.mem_map.1 hmem with ⟨kv2, hkv2, hfst⟩
            have hlt2 : k < kv2.1 := hhead kv2 hkv2
            rw [hfst, hd] at hlt2
            exact absurd (lt_trans hlt2 h1) (lt_irrefl k)
        rw [valueOf_not_mem _ _ hnot, if_pos hd]
      · rw [if_neg (fun he => hd he.symm)]
        simp [hd]
    · by_cases h2 : e = k
      · subst h2
        rw [if_neg h1, if_pos rfl, valueOf_cons, valueOf_cons]
        by_cases hd : e = d
        · rw [if_pos hd, if_pos hd]
          simp [hd.symm]
        · rw [if_neg hd, if_neg hd]
          simp [Ne.symm hd]
      · rw [if_neg h1, if_neg h2, valueOf_cons, valueOf_cons]
        by_cases hd : k = d
        · rw [if_pos hd, if_pos hd]
          have hke : k < e := lt_of_le_of_ne (le_of_not_lt h1) (fun hh => h2 hh.symm)
          have hde : ¬ d = e := by
            rw [← hd]
            exact ne_of_lt hke
          simp [hde]
        · rw [if_neg hd, if_neg hd]
          exact ih htail

theorem keys_nodup (tm : Timings) (hs : Sorted tm) : (tm.map Prod.fst).Nodup := by
  have hp : (tm.map Prod.fst).Pairwise (fun a b => a < b) := by
    rw [List.pairwise_map]
    exact hs
  exact hp.imp (fun h => ne_of_lt h)

theorem mem_keys_recordAll_aux (l : List Duration) (d : Duration) : ∀ tm : Timings,
    (d ∈ (l.foldl (fun tm e => track e tm) tm).map Prod.fst ↔
      d ∈ l ∨ d ∈ tm.map Prod.fst) := by
  induction l with
  | nil => intro tm; simp
  | cons e l ih =>
    intro tm
    rw [List.foldl_cons, ih (track e tm), mem_keys_track]
    simp only [List.mem_cons]
    tauto

theorem recordAll_sorted_aux (l : List Duration) : ∀ tm : Timings, Sorted tm →
    Sorted (l.foldl (fun tm e => track e tm) tm) := by
  induction l with
  | nil => intro tm hs; exact hs
  | cons e l ih =>
    intro tm hs
    rw [List.foldl_cons]
    exact ih (track e tm) (track_sorted e tm hs)

theorem recordAll_sorted (l : List Duration) : Sorted (recordAll l) :=
  recordAll_sorted_aux l [] (by simp [Sorted])

theorem valueOf_recordAll_aux (d : Duration) (l : List Duration) : ∀ tm : Timings, Sorted tm →
    valueOf d (l.foldl (fun tm e => track e tm) tm) = valueOf d tm + l.count d := by
  induction l with
  | nil => intro tm _; simp
  | cons e l ih =>
    intro tm hsorted
    rw [List.foldl_cons, ih (track e tm) (track_sorted e tm hsorted),
      valueOf_track d e tm hsorted]
    by_cases hd : d = e
    · subst hd
      rw [if_pos rfl, List.count_cons_self]
      omega
    · rw [if_neg hd, List.count_cons_of_ne hd]
      omega

/-- C6: every distinct recorded duration appears as exactly one key of the
accumulator mapping — its key-occurrence count is 1 if it was ever recorded
and 0 otherwise — and the count stored under that key equals the number of
times that exact duration was recorded, so recording an already-seen duration
increments its entry instead of adding a new one. -/
theorem distinct_duration_single_key (l : List Duration) :
    Sorted (recordAll l) ∧
    (∀ d, ((recordAll l).map Prod.fst).count d = if d ∈ l then 1 else 0) ∧
    (∀ d, valueOf d (recordAll l) = l.count d) := by
  have hsorted : Sorted (recordAll l) := recordAll_sorted l
  refine ⟨hsorted, ?_, ?_⟩
  · intro d
    have hmem : d ∈ (recordAll l).map Prod.fst ↔ d ∈ l := by
      rw [show recordAll l = l.foldl (fun tm e => track e tm) [] from rfl,
        mem_keys_recordAll_aux l d []]
      simp
    by_cases hd : d ∈ l
    · rw [if_pos hd]
      exact List.count_eq_one_of_mem (keys_nodup _ hsorted) (hmem.2 hd)
    · rw [if_neg hd]
      exact List.count_eq_zero_of_not_mem (fun hc => hd (hmem.1 hc))
  · intro d
    rw [show recordAll l = l.foldl (fun tm e => track e tm) [] from rfl,
      valueOf_recordAll_aux d l [] (by simp [Sorted]), valueOf_nil]
    omega

/-- C7: after recording durations {10ns, 20ns, 20ns, 30ns} into a fresh
accumulator, count() = 4, total_duration() = 80ns, average_duration() = 20.0,
percentile(0.5, by_time=false) = 20ns and percentile(0.5, by_time=true) = 20ns. -/
theorem scenario_10_20_20_30 :
    count (recordAll [10, 20, 20, 30]) = 4 ∧
    total_duration (recordAll [10, 20, 20, 30]) = 80 ∧
    average_duration (recordAll [10, 20, 20, 30]) = FP.fin 20 ∧
    percentile (recordAll [10, 20, 20, 30]) (1 / 2) false = 20 ∧
    percentile (recordAll [10, 20, 20, 30]) (1 / 2) true = 20 := by
  with_unfolding_all decide

end Profiler
